import Mathlib

/-!
Verification of the gemini-exporter thinking-block tooling.

Shallow embedding of the three scripts:
  * fix_thinking_duplicates.py   (duplication detector + reconciler)
  * recover_thinking_from_html.py (segmenter + recovery pass)
  * diagnose_thinking_blocks.py  (diagnostics)

Python strings are modelled as `List Char`; JSON dictionaries as
structures whose absent fields default to empty collections / zero, the
way `dict.get` defaults them in the source.  Raised exceptions are
modelled with `Except PyError`.  The HTML document (produced externally
by BeautifulSoup from the `raw_html` string) is modelled as a
first-child / next-sibling DOM tree `Dom`, which keeps every traversal
structurally recursive.
-/

/-- Whitespace recognised by Python's `str.strip()` (ASCII subset that
occurs in the modelled documents). -/
def isSpace (c : Char) : Bool :=
  c = ' ' || c = '\t' || c = '\n' || c = '\r'

/-- Python `str.strip()`. -/
def strip (s : List Char) : List Char :=
  ((s.dropWhile isSpace).reverse.dropWhile isSpace).reverse

/-- Python `needle in hay` (substring containment) for strings. -/
def strContains (hay needle : List Char) : Bool :=
  match hay with
  | [] => needle.isEmpty
  | _ :: rest => needle.isPrefixOf hay || strContains rest needle

/-- Number of positions of `hay` at which `needle` starts. -/
def countOccur (needle hay : List Char) : Nat :=
  match hay with
  | [] => if needle.isEmpty then 1 else 0
  | _ :: rest => (if needle.isPrefixOf hay then 1 else 0) + countOccur needle rest

/-- The apostrophe character, spelled via its code point. -/
def apos : Char := Char.ofNat 39

def s_thinking : List Char := "thinking".toList

def s_assistant : List Char := "assistant_response".toList

def s_model_thoughts : List Char := "model-thoughts".toList

def s_thought : List Char := "thought".toList

def s_nl2 : List Char := "\n\n".toList

/-- A `{stage_name, text}` record. -/
structure Stage where
  stage_name : List Char
  text : List Char
deriving DecidableEq, Repr

/-- HTML tags distinguished by the scripts; everything else is `other`. -/
inductive Tag where
  | p | div | strong | b | other
deriving DecidableEq, Repr

/-- The attributes the scripts inspect: the `data-test-id` attribute and
the (multi-valued) `class` attribute. -/
structure Attrs where
  dataTestId : Option (List Char)
  classes : List (List Char)
deriving DecidableEq, Repr

def noAttrs : Attrs := ⟨none, []⟩

/-- First-child / next-sibling encoding of a parsed HTML forest:
`none` ends a sibling chain, `text s sib` is a text node followed by its
siblings, `elem t a child sib` an element with attributes, first child
and following siblings. -/
inductive Dom where
  | none
  | text (s : List Char) (sib : Dom)
  | elem (tag : Tag) (attrs : Attrs) (child : Dom) (sib : Dom)
deriving DecidableEq, Repr

/-- BeautifulSoup `get_text(strip=True)`: each text fragment stripped,
then concatenated in document order. -/
def getText : Dom → List Char
  | .none => []
  | .text s sib => strip s ++ getText sib
  | .elem _ _ child sib => getText child ++ getText sib

/-- All elements of a forest in document (pre)order, each detached from
its following siblings.  This is the result sequence of an unfiltered
BeautifulSoup `find_all`. -/
def elems : Dom → List Dom
  | .none => []
  | .text _ sib => elems sib
  | .elem t a child sib => .elem t a child .none :: (elems child ++ elems sib)

def is_block_tag : Dom → Bool
  | .elem t _ _ _ => t = .p || t = .div
  | _ => false

def is_bold_tag : Dom → Bool
  | .elem t _ _ _ => t = .strong || t = .b
  | _ => false

/-- `container.find_all(['p', 'div'])`: all descendant `p`/`div`
elements, the container itself excluded. -/
def find_all_blocks (container : Dom) : List Dom :=
  match container with
  | .elem _ _ child _ => (elems child).filter is_block_tag
  | _ => []

/-- `el.find(['strong', 'b'])`: the first descendant bold element. -/
def find_bold (el : Dom) : Option Dom :=
  match el with
  | .elem _ _ child _ => ((elems child).filter is_bold_tag).head?
  | _ => Option.none

example : getText (.elem .p noAttrs (.text "  hi ".toList .none) .none) = "hi".toList := by decide

example : strContains "abc".toList "bc".toList = true := by decide

example : strContains "abc".toList "".toList = true := by decide

example : strContains "".toList "a".toList = false := by decide

example : countOccur "body".toList "body\n\nbody".toList = 2 := by decide

/-- A message object: `message_type`, `text`, `thinking_stages`,
`message_index`, absent fields defaulted the way `msg.get` does. -/
structure Message where
  message_type : List Char
  text : List Char
  thinking_stages : List Stage
  message_index : Nat
deriving DecidableEq, Repr

/-- An exchange: its ordered `messages` sequence. -/
structure Exchange where
  messages : List Message
deriving DecidableEq, Repr

/-- An export file: `message_count`, `exchanges`, optional `raw_html`
(already parsed into a `Dom` forest by the external HTML parser). -/
structure Export where
  message_count : Nat
  exchanges : List Exchange
  raw_html : Option Dom
deriving DecidableEq, Repr

/-- Exceptions raised by the modelled code: `unpack` stands for the
ValueError / TypeError raised when `clean_file` unpacks the single
dictionary that `clean_exchange` returns on its early-return path, and
`parse` for a `json.load` / IO failure while reading a file. -/
inductive PyError where
  | unpack
  | parse
deriving DecidableEq, Repr

/-- fix_thinking_duplicates.contains_thinking_stage_text. -/
def contains_thinking_stage_text (text : List Char) (thinking_stages : List Stage) : Bool :=
  if text.isEmpty || thinking_stages.isEmpty then false
  else thinking_stages.any (fun stage => !stage.stage_name.isEmpty && strContains text stage.stage_name)

/-- The message filter loop of `clean_exchange`: drops every
`assistant_response` whose text contains thinking stage text, returning
the kept messages in order together with the number removed. -/
def removeDups (thinking_stages : List Stage) : List Message → List Message × Nat
  | [] => ([], 0)
  | msg :: rest =>
    let p := removeDups thinking_stages rest
    if msg.message_type = s_assistant ∧ contains_thinking_stage_text msg.text thinking_stages = true then
      (p.1, p.2 + 1)
    else (msg :: p.1, p.2)

/-- The renumbering loop of `clean_exchange`: `message_index` becomes
the position of the message, counting from `i`. -/
def renumber (i : Nat) : List Message → List Message
  | [] => []
  | msg :: rest => { msg with message_index := i } :: renumber (i + 1) rest

def is_thinking (msg : Message) : Bool :=
  decide (msg.message_type = s_thinking)

/-- fix_thinking_duplicates.clean_exchange.  On the early-return path
(no thinking message, or empty `thinking_stages`) the Python function
returns the bare exchange dictionary instead of an
`(exchange, removed_count)` pair; the `Sum.inl` constructor records
that shape mismatch. -/
def clean_exchange (ex : Exchange) : Sum Exchange (Exchange × Nat) :=
  match ex.messages.find? is_thinking with
  | Option.none => .inl ex
  | Option.some thinking_msg =>
    if thinking_msg.thinking_stages = [] then .inl ex
    else
      let p := removeDups thinking_msg.thinking_stages ex.messages
      .inr ({ ex with messages := renumber 0 p.1 }, p.2)

/-- The per-exchange loop of `clean_file`.  The statement
`cleaned_exchange, removed = clean_exchange(exchange)` unpacks the
returned value: when `clean_exchange` took its early-return path the
value is a single dictionary, and the unpacking (or the subsequent
`removed > 0` comparison against the unpacked string key) raises, which
the `.error .unpack` branch models.  Returns the cleaned exchanges, the
`exchanges_cleaned` counter and the `total_removed` counter. -/
def clean_exchanges_loop : List Exchange → Except PyError (List Exchange × Nat × Nat)
  | [] => .ok ([], 0, 0)
  | ex :: rest =>
    match clean_exchange ex with
    | .inl _ => .error .unpack
    | .inr (ex', removed) =>
      match clean_exchanges_loop rest with
      | .error e => .error e
      | .ok (exs, cleaned, total) =>
        .ok (ex' :: exs, (if removed > 0 then cleaned + 1 else cleaned), total + removed)

/-- fix_thinking_duplicates.clean_file, its pure core: cleans every
exchange, recomputes `message_count` as the sum of the remaining
message-list lengths, and returns the written export together with the
`(exchanges_cleaned, total_removed)` pair the function returns. -/
def clean_file (data : Export) : Except PyError (Export × Nat × Nat) :=
  match clean_exchanges_loop data.exchanges with
  | .error e => .error e
  | .ok (exs, cleaned, total) =>
    let total_messages := (exs.map (fun ex => ex.messages.length)).sum
    .ok ({ data with exchanges := exs, message_count := total_messages }, cleaned, total)

/-- The accumulator loop of recover_thinking_from_html.
extract_stages_from_container: walks the block elements keeping the
current `{stage_name, text}` accumulator and the finished stages. -/
def segLoop : List Dom → Option Stage → List Stage → List Stage
  | [], cur, acc =>
    match cur with
    | Option.some c => if strip c.text ≠ [] then acc ++ [c] else acc
    | Option.none => acc
  | el :: rest, cur, acc =>
    let text := getText el
    if text = [] then segLoop rest cur acc
    else
      match find_bold el with
      | Option.some bnode =>
        let bold_text := getText bnode
        if text = bold_text then
          let acc' :=
            match cur with
            | Option.some c => if strip c.text ≠ [] then acc ++ [c] else acc
            | Option.none => acc
          segLoop rest (Option.some ⟨bold_text, []⟩) acc'
        else
          match cur with
          | Option.some c => segLoop rest (Option.some ⟨c.stage_name, c.text ++ s_nl2 ++ text⟩) acc
          | Option.none => segLoop rest cur acc
      | Option.none =>
        match cur with
        | Option.some c => segLoop rest (Option.some ⟨c.stage_name, c.text ++ s_nl2 ++ text⟩) acc
        | Option.none => segLoop rest cur acc

/-- recover_thinking_from_html.extract_stages_from_container. -/
def extract_stages_from_container (container : Dom) : List Stage :=
  (segLoop (find_all_blocks container) Option.none []).map
    (fun stage => { stage with text := strip stage.text })

def has_model_thoughts : Dom → Bool
  | .elem _ a _ _ => decide (a.dataTestId = Option.some s_model_thoughts)
  | _ => false

/-- The `class_=lambda x: x and WORD in x.lower()` selector: some class
token of the element contains `word` case-insensitively. -/
def class_contains (word : List Char) : Dom → Bool
  | .elem _ a _ _ => a.classes.any (fun c => strContains (c.map Char.toLower) word)
  | _ => false

/-- The container search of extract_thinking_from_html: three selectors
chained with Python `or`, the first one returning a non-empty list
wins. -/
def find_containers (soup : Dom) : List Dom :=
  let all := elems soup
  let sel1 := all.filter has_model_thoughts
  if sel1 ≠ [] then sel1
  else
    let sel2 := all.filter (class_contains s_thinking)
    if sel2 ≠ [] then sel2
    else all.filter (class_contains s_thought)

/-- One `{block_index, stages, raw_text}` entry of the recovery
output. -/
structure ThinkingBlock where
  block_index : Nat
  stages : List Stage
  raw_text : List Char
deriving DecidableEq, Repr

/-- The `for idx, container in enumerate(containers)` loop of
extract_thinking_from_html: containers that yield no stages are
skipped, but `idx` keeps counting them. -/
def extract_go (idx : Nat) : List Dom → List ThinkingBlock
  | [] => []
  | c :: rest =>
    if extract_stages_from_container c = [] then extract_go (idx + 1) rest
    else ⟨idx, extract_stages_from_container c, getText c⟩ :: extract_go (idx + 1) rest

/-- recover_thinking_from_html.extract_thinking_from_html. -/
def extract_thinking_from_html (soup : Dom) : List ThinkingBlock :=
  extract_go 0 (find_containers soup)

/-- The `recovery_stats` record of the recovery output. -/
structure RecoveryStats where
  total_found : Nat
  current_in_json : Nat
  newly_recovered : Nat
deriving DecidableEq, Repr

/-- The recovery output document (minus the `source_file` path). -/
structure RecoveryData where
  recovered_thinking_blocks : List ThinkingBlock
  recovery_stats : RecoveryStats
deriving DecidableEq, Repr

/-- recover_thinking_from_html.recover_thinking_blocks, its pure core:
`Option.none` when no `raw_html` is present or when nothing new is
recoverable (the function then writes no recovery file). -/
def recover_thinking_blocks (data : Export) : Option RecoveryData :=
  match data.raw_html with
  | Option.none => Option.none
  | Option.some raw =>
    let thinking_blocks := extract_thinking_from_html raw
    let current_thinking :=
      (data.exchanges.map (fun ex =>
        (ex.messages.filter (fun msg =>
          msg.message_type = s_thinking ∧ msg.thinking_stages ≠ [])).length)).sum
    if thinking_blocks.length > current_thinking then
      Option.some ⟨thinking_blocks,
        ⟨thinking_blocks.length, current_thinking,
         thinking_blocks.length - current_thinking⟩⟩
    else Option.none

example : clean_file ⟨3, [⟨[⟨s_assistant, "hi".toList, [], 0⟩]⟩], Option.none⟩ = .error .unpack := rfl

/-- The `thinking_keywords` list of diagnose_thinking_blocks.analyze_file.
The apostrophes of the source literals are spelled via `apos`. -/
def thinking_keywords : List (List Char) :=
  [ "I".toList ++ [apos] ++ "m thinking".toList,
    "I".toList ++ [apos] ++ "m now thinking".toList,
    "I".toList ++ [apos] ++ "m focusing".toList,
    "My current thinking".toList,
    "Clarifying".toList,
    "Analyzing".toList,
    "Developing".toList,
    "Crafting".toList,
    "Simplifying".toList,
    "I".toList ++ [apos] ++ "ve been thinking".toList,
    "I am thinking".toList ]

/-- The issue strings appended to `stats['issues']`, keyed by the
formatted exchange index; the three f-string shapes of the source. -/
inductive Issue where
  | noStages (exIdx : Nat)
  | dupThinking (exIdx : Nat)
  | keywordLeak (exIdx : Nat)
deriving DecidableEq, Repr

/-- The message loop of diagnose_thinking_blocks.analyze_file for one
exchange, restricted to the `issues` component of the stats it builds.
`hasT` is the `has_thinking` flag and `names` the `thinking_stages`
name list, both threaded exactly as in the source loop. -/
def analyze_msgs (k : Nat) : List Message → Bool → List (List Char) → List Issue
  | [], _, _ => []
  | msg :: rest, hasT, names =>
    if msg.message_type = s_thinking then
      if msg.thinking_stages ≠ [] then
        analyze_msgs k rest true (msg.thinking_stages.map (fun s => s.stage_name))
      else
        Issue.noStages k :: analyze_msgs k rest true names
    else if msg.message_type = s_assistant then
      if names ≠ [] then
        if names.any (fun n => !n.isEmpty && strContains msg.text n) then
          Issue.dupThinking k :: analyze_msgs k rest hasT names
        else analyze_msgs k rest hasT names
      else if thinking_keywords.any (fun w => strContains msg.text w) then
        if hasT = false then Issue.keywordLeak k :: analyze_msgs k rest hasT names
        else analyze_msgs k rest hasT names
      else analyze_msgs k rest hasT names
    else analyze_msgs k rest hasT names

/-- The exchange loop of analyze_file, collecting issues with their
`ex_idx`. -/
def analyze_exchanges (k : Nat) : List Exchange → List Issue
  | [] => []
  | ex :: rest => analyze_msgs k ex.messages false [] ++ analyze_exchanges (k + 1) rest

/-- diagnose_thinking_blocks.analyze_file, restricted to the ordered
`issues` list of the stats dictionary it returns. -/
def analyze_file_issues (data : Export) : List Issue :=
  analyze_exchanges 0 data.exchanges

/-- The file loop of diagnose_thinking_blocks.main.  Each list entry is
the outcome of reading and parsing one file (the `json.load` inside
`analyze_file`).  The loop body has no exception handler, so a failing
file propagates and ends the whole run. -/
def diagnose_batch : List (Except PyError Export) → Except PyError (List (List Issue))
  | [] => .ok []
  | f :: rest =>
    match f with
    | .error e => .error e
    | .ok data =>
      match diagnose_batch rest with
      | .error e => .error e
      | .ok others => .ok (analyze_file_issues data :: others)

/-- The file loop of fix_thinking_duplicates.main.  The call to
`clean_file` (including its `json.load`) sits inside
`try ... except Exception`, so a failing file is reported and skipped;
the totals `(total_files, total_exchanges, total_messages)` accumulate
only over the successful files. -/
def fix_batch : List (Except PyError Export) → Nat × Nat × Nat
  | [] => (0, 0, 0)
  | f :: rest =>
    let t := fix_batch rest
    match f with
    | .error _ => t
    | .ok data =>
      match clean_file data with
      | .error _ => t
      | .ok (_, cleaned, removed) => (t.1 + 1, t.2.1 + cleaned, t.2.2 + removed)

example : analyze_file_issues ⟨0, [⟨[⟨s_thinking, [], [], 0⟩]⟩], Option.none⟩ = [Issue.noStages 0] := by decide

example : analyze_file_issues ⟨0, [⟨[⟨s_assistant, "Analyzing the problem".toList, [], 0⟩]⟩], Option.none⟩ = [Issue.keywordLeak 0] := by decide

/-- A paragraph whose whole content is a bold span, followed by its
sibling: the header-block shape. -/
def pBold (s : String) (sib : Dom) : Dom :=
  .elem .p noAttrs (.elem .strong noAttrs (.text s.toList .none) .none) sib

/-- A paragraph holding plain text, followed by its sibling. -/
def pText (s : String) (sib : Dom) : Dom :=
  .elem .p noAttrs (.text s.toList .none) sib

/-- An export holding a single exchange with no thinking message. -/
def e1a : Export := ⟨2, [⟨[⟨s_assistant, "hello".toList, [], 0⟩]⟩], Option.none⟩

/-- An export whose only thinking message has an empty stage list. -/
def e1b : Export :=
  ⟨2, [⟨[⟨s_thinking, [], [], 0⟩, ⟨s_assistant, "hello".toList, [], 1⟩]⟩], Option.none⟩

/-- C1: the claim says cleanup of an export whose exchange has no
thinking message (or an empty stage sequence) completes without
raising.  It does not: `clean_exchange` returns the bare exchange
dictionary on that path, `clean_file` unpacks it as a pair, and the
unpacking raises, so `clean_file` propagates an exception for both
failing inputs. -/
theorem clean_file_raises_without_thinking :
    clean_file e1a = .error .unpack ∧ clean_file e1b = .error .unpack :=
  ⟨rfl, rfl⟩

/-- The Scenario C container: blocks Header One / some prose /
Header Two / Header Three / final prose. -/
def c3container : Dom :=
  .elem .div noAttrs
    (pBold "Header One" (pText "some prose" (pBold "Header Two"
      (pBold "Header Three" (pText "final prose" .none))))) .none

/-- C3: on the Scenario C container the segmenter yields exactly the
stages (Header One, some prose) and (Header Three, final prose); the
body-less Header Two is dropped, and every emitted body is
whitespace-trimmed and non-empty. -/
theorem scenario_c_segmentation :
    extract_stages_from_container c3container =
      [⟨"Header One".toList, "some prose".toList⟩,
       ⟨"Header Three".toList, "final prose".toList⟩]
    ∧ (extract_stages_from_container c3container).all
        (fun s => (strip s.text == s.text) && !s.text.isEmpty) = true := by
  decide

def c4stages : List Stage :=
  [⟨"Clarifying the request".toList, "alpha".toList⟩,
   ⟨"Drafting a plan".toList, "beta".toList⟩]

def c4think : Message := ⟨s_thinking, [], c4stages, 0⟩

def c4resp : Message :=
  ⟨s_assistant, "Drafting a plan: first I will outline the steps".toList, [], 1⟩

/-- The Scenario A export: one exchange with a thinking message and a
response restating the name of the stage Drafting a plan. -/
def c4export : Export := ⟨2, [⟨[c4think, c4resp]⟩], Option.none⟩

/-- C4: on the Scenario A export the reconciler removes the whole
response message and nothing else: the exchange keeps exactly the
unedited thinking message, its `message_index` renumbered from 0, and
`message_count` is recomputed to 1, the sum of the remaining messages.
The returned counters report one cleaned exchange and one removed
message. -/
theorem scenario_a_removal :
    clean_file c4export = .ok (⟨1, [⟨[c4think]⟩], Option.none⟩, 1, 1) :=
  rfl

/-- A container in which a block element (`div`) holds another block
element (`p`): the inner block's text is "body". -/
def c5container : Dom :=
  .elem .div noAttrs
    (pBold "Nested" (.elem .div noAttrs (pText "body" .none) .none)) .none

/-- C5 counterexample: the claim says a block nested inside another
block contributes its flattened text at most once.  On `c5container`
the inner paragraph's text "body" occurs once in the container's own
flattened text, yet twice in the emitted stage body: the enumeration is
recursive, so the text is counted via the enclosing `div` and again via
the inner `p`. -/
theorem nested_block_double_count :
    extract_stages_from_container c5container =
      [⟨"Nested".toList, "body\n\nbody".toList⟩]
    ∧ countOccur "body".toList (getText c5container) = 1
    ∧ countOccur "body".toList "body\n\nbody".toList = 2 := by
  decide

/-- C5 amended: the segmenter enumerates all block-level descendants
recursively, not only the immediate ones — the inner `p` of
`c5container` appears in the enumerated block list alongside its
enclosing `div`, and its text therefore enters the stage body twice. -/
theorem nested_blocks_enumerated_recursively :
    find_all_blocks c5container =
      [pBold "Nested" Dom.none,
       .elem .div noAttrs (pText "body" Dom.none) Dom.none,
       pText "body" Dom.none]
    ∧ extract_stages_from_container c5container =
        [⟨"Nested".toList, "body\n\nbody".toList⟩] := by
  decide

/-- Attributes carrying `data-test-id="model-thoughts"`. -/
def mtAttrs : Attrs := ⟨Option.some s_model_thoughts, []⟩

/-- One matched container holding two header blocks, each followed by
a non-empty body. -/
def c6container : Dom :=
  .elem .div mtAttrs
    (pBold "Stage A" (pText "alpha" (pBold "Stage B" (pText "beta" .none)))) .none

/-- An export whose thinking message has an empty stage list and whose
raw document is `c6container`. -/
def c6export : Export :=
  ⟨4, [⟨[⟨s_thinking, [], [], 0⟩]⟩], Option.some c6container⟩

/-- C6 counterexample: the raw document of `c6export` yields 2
recoverable header blocks with non-empty bodies (both inside one
container) and 0 stages are present in structured form, and the
diagnostic pass does record the no-stages issue — but the recovery
record reports `newly_recovered = 1`, not 2: the code counts matched
containers, not recovered header blocks. -/
theorem recovery_counts_containers_not_stages :
    analyze_file_issues c6export = [Issue.noStages 0]
    ∧ (recover_thinking_blocks c6export).map
        (fun r => (r.recovered_thinking_blocks.map (fun blk => blk.stages.length)).sum)
        = Option.some 2
    ∧ (recover_thinking_blocks c6export).map (fun r => r.recovery_stats.newly_recovered)
        = Option.some 1
    ∧ (recover_thinking_blocks c6export).map (fun r => r.recovery_stats.newly_recovered)
        ≠ Option.some 2 := by
  decide

/-- Two matched containers, one header block with a non-empty body in
each. -/
def c6braw : Dom :=
  .elem .div mtAttrs (pBold "Stage A" (pText "alpha" .none))
    (.elem .div mtAttrs (pBold "Stage B" (pText "beta" .none)) .none)

def c6bexport : Export :=
  ⟨4, [⟨[⟨s_thinking, [], [], 0⟩]⟩], Option.some c6braw⟩

/-- C6 amended: `newly_recovered` is the number of matched containers
that yielded at least one stage minus the number of thinking messages
with a non-empty stage list.  When the 2 recoverable header blocks sit
in 2 distinct containers and the structured form has none, the
diagnostic pass records the no-stages issue and the recovery record
reports `total_found = 2`, `current_in_json = 0`,
`newly_recovered = 2`. -/
theorem recovery_stats_per_container :
    analyze_file_issues c6bexport = [Issue.noStages 0]
    ∧ (recover_thinking_blocks c6bexport).map (fun r => r.recovery_stats)
        = Option.some ⟨2, 0, 2⟩
    ∧ (recover_thinking_blocks c6bexport).map
        (fun r => (r.recovered_thinking_blocks.map (fun blk => blk.stages.length)).sum)
        = Option.some 2 := by
  decide

/-- An export that parses and analyzes cleanly (no exchanges). -/
def c7good : Export := ⟨0, [], Option.none⟩

/-- An export on which `clean_file` raises (its exchange has no
thinking message). -/
def c7bad : Export := ⟨1, [⟨[⟨s_assistant, "hi".toList, [], 0⟩]⟩], Option.none⟩

/-- C7 counterexample: the claim says no batch-level tool aborts as a
whole because one file raised.  The diagnostic tool does: with a batch
whose second file fails to parse, the whole run returns the error and
the results of the remaining (and even the preceding) files are lost,
while the same good file alone is analyzed fine. -/
theorem diagnose_batch_aborts_on_bad_file :
    diagnose_batch [.ok c7good, .error .parse, .ok c7good] = .error .parse
    ∧ diagnose_batch [.ok c7good] = .ok [[]] :=
  ⟨rfl, rfl⟩

/-- C7 amended: the fixer batch tool wraps each file in an exception
handler, so a file that fails to parse — or one on which `clean_file`
itself raises — is skipped and the totals continue to accumulate over
the remaining files; the diagnostic batch tool has no such handler and
a failing file aborts the whole run. -/
theorem fix_batch_continues_diagnose_aborts :
    (∀ (e : PyError) (rest : List (Except PyError Export)),
        fix_batch (.error e :: rest) = fix_batch rest)
    ∧ (∀ rest : List (Except PyError Export),
        fix_batch (.ok c7bad :: rest) = fix_batch rest)
    ∧ (∀ (e : PyError) (rest : List (Except PyError Export)),
        diagnose_batch (.error e :: rest) = .error e) :=
  ⟨fun _ _ => rfl, fun _ => rfl, fun _ _ => rfl⟩

/-- `List.isPrefixOf` agrees with the existence of a completing
suffix. -/
theorem prefixOf_iff (a l : List Char) : a.isPrefixOf l = true ↔ ∃ t, a ++ t = l := by
  induction a generalizing l with
  | nil => simp [List.isPrefixOf]
  | cons x xs ih =>
    cases l with
    | nil => simp [List.isPrefixOf]
    | cons y ys =>
      simp [List.isPrefixOf, ih, List.cons_append, List.cons.injEq, Bool.and_eq_true,
        beq_iff_eq, exists_and_left]

/-- `strContains hay needle` holds exactly when `needle` occurs verbatim
inside `hay`. -/
theorem strContains_iff (hay needle : List Char) :
    strContains hay needle = true ↔ ∃ u v, u ++ needle ++ v = hay := by
  induction hay with
  | nil =>
    simp only [strContains, List.isEmpty_iff]
    constructor
    · intro h
      exact ⟨[], [], by simp [h]⟩
    · rintro ⟨u, v, huv⟩
      rcases List.append_eq_nil.mp huv with ⟨h1, -⟩
      exact (List.append_eq_nil.mp h1).2
  | cons c rest ih =>
    simp only [strContains, Bool.or_eq_true, ih, prefixOf_iff]
    constructor
    · rintro (⟨t, ht⟩ | ⟨u, v, huv⟩)
      · exact ⟨[], t, by simpa using ht⟩
      · exact ⟨c :: u, v, by simp [huv]⟩
    · rintro ⟨u, v, huv⟩
      cases u with
      | nil => exact Or.inl ⟨v, by simpa using huv⟩
      | cons x u' =>
        simp only [List.cons_append, List.cons.injEq] at huv
        exact Or.inr ⟨u', v, huv.2⟩

/-- C2: for a non-empty stage sequence, the duplication detector flags
a response text exactly when the text contains, as a verbatim
case-sensitive substring, the name of some stage whose name is
non-empty. -/
theorem contains_stage_text_iff (text : List Char) (stages : List Stage)
    (hne : stages ≠ []) :
    contains_thinking_stage_text text stages = true ↔
      ∃ s ∈ stages, s.stage_name ≠ [] ∧ ∃ u v, u ++ s.stage_name ++ v = text := by
  have hs : stages.isEmpty = false := by
    cases stages with
    | nil => exact absurd rfl hne
    | cons a l => rfl
  cases text with
  | nil =>
    simp only [contains_thinking_stage_text, List.isEmpty_nil, Bool.true_or, if_true]
    constructor
    · intro h; cases h
    · rintro ⟨s, -, hname, u, v, huv⟩
      rcases List.append_eq_nil.mp huv with ⟨h1, -⟩
      exact absurd (List.append_eq_nil.mp h1).2 hname
  | cons c t =>
    simp only [contains_thinking_stage_text, List.isEmpty_cons, hs, Bool.or_self,
      Bool.false_eq_true, if_false, List.any_eq_true, Bool.and_eq_true,
      Bool.not_eq_true', strContains_iff]
    constructor
    · rintro ⟨s, hmem, h1, h2⟩
      exact ⟨s, hmem, by simpa [List.isEmpty_iff] using h1, h2⟩
    · rintro ⟨s, hmem, h1, h2⟩
      exact ⟨s, hmem, by simpa [List.isEmpty_iff] using h1, h2⟩

def c2stages : List Stage := [⟨"Clarifying the request".toList, "gamma".toList⟩]

def c2text : List Char := "Clarifying the request".toList

/-- Witness for C2 at the precision-floor input: a response text equal
to the stage name "Clarifying the request". -/
theorem contains_stage_text_iff_witness :
    contains_thinking_stage_text c2text c2stages = true ↔
      ∃ s ∈ c2stages, s.stage_name ≠ [] ∧ ∃ u v, u ++ s.stage_name ++ v = c2text :=
  contains_stage_text_iff c2text c2stages (by decide)

/-- Once `has_thinking` is set the keyword branch can no longer fire:
no keyword-leak issue is emitted from a state with the flag raised. -/
theorem leak_not_mem_hasT (k : Nat) : ∀ (msgs : List Message) (names : List (List Char)),
    Issue.keywordLeak k ∉ analyze_msgs k msgs true names := by
  intro msgs
  induction msgs with
  | nil => intro names; simp [analyze_msgs]
  | cons m rest ih =>
    intro names
    simp only [analyze_msgs]
    split_ifs <;> simp_all [List.mem_cons]

/-- The two message-type tags are distinct strings. -/
theorem s_assistant_ne_thinking : s_assistant ≠ s_thinking := by decide

/-- The amended C8 property, following the spec's words with the order
correction: some response message is preceded by no thinking message
within the exchange and its text contains one of the fixed
reasoning-narration fragments verbatim. -/
def orphan_leak_spec (msgs : List Message) : Prop :=
  ∃ pre m post, msgs = pre ++ m :: post ∧ m.message_type = s_assistant ∧
    (∀ m2 ∈ pre, m2.message_type ≠ s_thinking) ∧
    thinking_keywords.any (fun w => strContains m.text w) = true

/-- A leading thinking message rules out the amended C8 property. -/
theorem orphan_leak_spec_thinking (m0 : Message) (rest : List Message)
    (ht : m0.message_type = s_thinking) : ¬ orphan_leak_spec (m0 :: rest) := by
  rintro ⟨pre, m, post, heq, hasst, hpre, -⟩
  cases pre with
  | nil =>
    simp only [List.nil_append, List.cons.injEq] at heq
    have : s_thinking = s_assistant := ht.symm.trans (heq.1 ▸ hasst)
    exact absurd this (by decide)
  | cons p0 pre' =>
    simp only [List.cons_append, List.cons.injEq] at heq
    exact absurd ht (heq.1 ▸ hpre p0 (List.mem_cons_self p0 pre'))

/-- A leading message that is neither a thinking message nor a
keyword-bearing response neither creates nor blocks the amended C8
property. -/
theorem orphan_leak_spec_cons (m0 : Message) (rest : List Message)
    (hnt : m0.message_type ≠ s_thinking)
    (hno : ¬(m0.message_type = s_assistant ∧
      thinking_keywords.any (fun w => strContains m0.text w) = true)) :
    orphan_leak_spec (m0 :: rest) ↔ orphan_leak_spec rest := by
  constructor
  · rintro ⟨pre, m, post, heq, hasst, hpre, hkw⟩
    cases pre with
    | nil =>
      simp only [List.nil_append, List.cons.injEq] at heq
      exact absurd ⟨heq.1 ▸ hasst, heq.1 ▸ hkw⟩ hno
    | cons p0 pre' =>
      simp only [List.cons_append, List.cons.injEq] at heq
      exact ⟨pre', m, post, heq.2, hasst,
        fun x hx => hpre x (List.mem_cons_of_mem p0 hx), hkw⟩
  · rintro ⟨pre, m, post, heq, hasst, hpre, hkw⟩
    refine ⟨m0 :: pre, m, post, by simp [heq], hasst, ?_, hkw⟩
    intro x hx
    rcases List.mem_cons.mp hx with hx0 | hx'
    · exact hx0 ▸ hnt
    · exact hpre x hx'

/-- C8 amended: the keyword fallback records an orphaned-reasoning
issue for an exchange exactly when some response message whose text
contains a reasoning-narration fragment verbatim is preceded by no
thinking message in the exchange's message order — a thinking message
appearing after such a response does not suppress the flag; the
diagnostic output is a report only. -/
theorem keyword_flag_iff_no_prior_thinking (k : Nat) (msgs : List Message) :
    Issue.keywordLeak k ∈ analyze_msgs k msgs false [] ↔ orphan_leak_spec msgs := by
  induction msgs with
  | nil =>
    constructor
    · intro h; simp [analyze_msgs] at h
    · rintro ⟨pre, m, post, heq, -, -, -⟩
      cases pre <;> simp at heq
  | cons m0 rest ih =>
    by_cases h1 : m0.message_type = s_thinking
    · have hL : Issue.keywordLeak k ∉ analyze_msgs k (m0 :: rest) false [] := by
        simp only [analyze_msgs, h1, if_pos]
        split_ifs <;> simp [List.mem_cons, leak_not_mem_hasT]
      constructor
      · intro h; exact absurd h hL
      · intro h; exact absurd h (orphan_leak_spec_thinking m0 rest h1)
    · by_cases h2 : m0.message_type = s_assistant
      · by_cases h3 : thinking_keywords.any (fun w => strContains m0.text w) = true
        · constructor
          · intro _; exact ⟨[], m0, rest, by simp, h2, by simp, h3⟩
          · intro _
            have hstep : analyze_msgs k (m0 :: rest) false [] =
                Issue.keywordLeak k :: analyze_msgs k rest false [] := by
              simp [analyze_msgs, h1, h2, h3, s_assistant_ne_thinking]
            rw [hstep]
            exact List.mem_cons_self _ _
        · have hstep : analyze_msgs k (m0 :: rest) false [] =
              analyze_msgs k rest false [] := by
            simp [analyze_msgs, h1, h2, h3, s_assistant_ne_thinking]
          rw [hstep, ih]
          exact (orphan_leak_spec_cons m0 rest h1 (fun hc => h3 hc.2)).symm
      · have hstep : analyze_msgs k (m0 :: rest) false [] =
            analyze_msgs k rest false [] := by
          simp [analyze_msgs, h1, h2]
        rw [hstep, ih]
        exact (orphan_leak_spec_cons m0 rest h1 (fun hc => h2 hc.1)).symm

/-- An exchange in which a keyword-bearing response precedes a thinking
message. -/
def c8exchange : List Message :=
  [⟨s_assistant, "I am thinking about the request".toList, [], 0⟩,
   ⟨s_thinking, [], [⟨"Stage A".toList, "alpha".toList⟩], 1⟩]

def c8export : Export := ⟨2, [⟨c8exchange⟩], Option.none⟩

/-- C8 counterexample: the claim requires that no thinking message
exist anywhere in the exchange, regardless of message order, for the
flag to fire.  In `c8exchange` a thinking message exists (after the
response), yet the keyword fallback still records the
orphaned-reasoning issue: the code only consults the messages seen so
far. -/
theorem keyword_flag_ignores_later_thinking :
    analyze_file_issues c8export = [Issue.keywordLeak 0]
    ∧ c8exchange.any (fun m => m.message_type == s_thinking) = true := by
  decide

/-- Membership in `extract_go i l`: exactly the positions of `l` whose
container yields a non-empty stage list, the recorded index offset by
`i`. -/
theorem extract_go_mem (blk : ThinkingBlock) : ∀ (l : List Dom) (i : Nat),
    blk ∈ extract_go i l ↔
      ∃ j, ∃ h : j < l.length,
        extract_stages_from_container (l.get ⟨j, h⟩) ≠ [] ∧
        blk = ⟨i + j, extract_stages_from_container (l.get ⟨j, h⟩),
               getText (l.get ⟨j, h⟩)⟩ := by
  intro l
  induction l with
  | nil => intro i; simp [extract_go]
  | cons c rest ih =>
    intro i
    by_cases hc : extract_stages_from_container c = []
    · have hstep : extract_go i (c :: rest) = extract_go (i + 1) rest := by
        show (if extract_stages_from_container c = [] then _ else _) = _
        exact if_pos hc
      rw [hstep, ih (i + 1)]
      constructor
      · rintro ⟨j, h, hne, hb⟩
        refine ⟨j + 1, Nat.succ_lt_succ h, hne, ?_⟩
        have harith : i + (j + 1) = (i + 1) + j := by omega
        rw [harith]
        exact hb
      · rintro ⟨j, h, hne, hb⟩
        cases j with
        | zero => exact absurd hc hne
        | succ j' =>
          refine ⟨j', Nat.lt_of_succ_lt_succ h, hne, ?_⟩
          have harith : (i + 1) + j' = i + (j' + 1) := by omega
          rw [harith]
          exact hb
    · have hstep : extract_go i (c :: rest) =
          ⟨i, extract_stages_from_container c, getText c⟩ :: extract_go (i + 1) rest := by
        show (if extract_stages_from_container c = [] then _ else _) = _
        exact if_neg hc
      rw [hstep, List.mem_cons, ih (i + 1)]
      constructor
      · rintro (hb | ⟨j, h, hne, hb⟩)
        · exact ⟨0, Nat.succ_pos _, hc, by simpa using hb⟩
        · refine ⟨j + 1, Nat.succ_lt_succ h, hne, ?_⟩
          have harith : i + (j + 1) = (i + 1) + j := by omega
          rw [harith]
          exact hb
      · rintro ⟨j, h, hne, hb⟩
        cases j with
        | zero => exact Or.inl (by simpa using hb)
        | succ j' =>
          refine Or.inr ⟨j', Nat.lt_of_succ_lt_succ h, hne, ?_⟩
          have harith : (i + 1) + j' = i + (j' + 1) := by omega
          rw [harith]
          exact hb

/-- A document with two matched containers, the first of which yields
no stages (prose without any header block). -/
def c10raw : Dom :=
  .elem .div mtAttrs (pText "just prose" .none)
    (.elem .div mtAttrs (pBold "H" (pText "body" .none)) .none)

/-- C10: the recovery output contains an entry exactly for each
position of the full matched-container list whose container yields at
least one stage, with `block_index` recording that absolute position
(containers yielding no stages still consume an index); on `c10raw`,
whose first matched container yields no stage, the single output entry
carries `block_index = 1`, so the indices neither start at 0 nor run
contiguously. -/
theorem recovered_block_indices :
    (∀ (soup : Dom) (blk : ThinkingBlock),
      blk ∈ extract_thinking_from_html soup ↔
        ∃ j, ∃ h : j < (find_containers soup).length,
          extract_stages_from_container ((find_containers soup).get ⟨j, h⟩) ≠ [] ∧
          blk = ⟨j, extract_stages_from_container ((find_containers soup).get ⟨j, h⟩),
                 getText ((find_containers soup).get ⟨j, h⟩)⟩)
    ∧ extract_thinking_from_html c10raw =
        [⟨1, [⟨"H".toList, "body".toList⟩], "Hbody".toList⟩] := by
  constructor
  · intro soup blk
    simpa [extract_thinking_from_html] using
      extract_go_mem blk (find_containers soup) 0
  · decide

/-- Removing duplicate responses does not change which message the
thinking search finds: the filter only drops `assistant_response`
messages. -/
theorem removeDups_find_thinking (stages : List Stage) : ∀ (l : List Message),
    (removeDups stages l).1.find? is_thinking = l.find? is_thinking := by
  intro l
  induction l with
  | nil => rfl
  | cons m rest ih =>
    by_cases hd : m.message_type = s_assistant ∧ contains_thinking_stage_text m.text stages = true
    · have hstep : (removeDups stages (m :: rest)).1 = (removeDups stages rest).1 := by
        simp only [removeDups, if_pos hd]
      have hm : ¬ is_thinking m = true := by
        simp [is_thinking, hd.1, s_assistant_ne_thinking]
      rw [hstep, List.find?_cons_of_neg _ hm]
      exact ih
    · have hstep : (removeDups stages (m :: rest)).1 = m :: (removeDups stages rest).1 := by
        simp only [removeDups, if_neg hd]
      rw [hstep]
      by_cases ht : is_thinking m = true
      · rw [List.find?_cons_of_pos _ ht, List.find?_cons_of_pos _ ht]
      · rw [List.find?_cons_of_neg _ ht, List.find?_cons_of_neg _ ht]
        exact ih

/-- Every message kept by the duplicate filter fails the removal
test. -/
theorem removeDups_kept_clean (stages : List Stage) : ∀ (l : List Message) (m : Message),
    m ∈ (removeDups stages l).1 →
    ¬(m.message_type = s_assistant ∧ contains_thinking_stage_text m.text stages = true) := by
  intro l
  induction l with
  | nil => intro m hm; simp [removeDups] at hm
  | cons m0 rest ih =>
    intro m hm
    by_cases hd : m0.message_type = s_assistant ∧ contains_thinking_stage_text m0.text stages = true
    · have hstep : (removeDups stages (m0 :: rest)).1 = (removeDups stages rest).1 := by
        simp only [removeDups, if_pos hd]
      rw [hstep] at hm
      exact ih m hm
    · have hstep : (removeDups stages (m0 :: rest)).1 = m0 :: (removeDups stages rest).1 := by
        simp only [removeDups, if_neg hd]
      rw [hstep] at hm
      rcases List.mem_cons.mp hm with rfl | hm'
      · exact hd
      · exact ih m hm'

/-- On a list with no removable message the duplicate filter is the
identity and removes nothing. -/
theorem removeDups_of_clean (stages : List Stage) : ∀ (l : List Message),
    (∀ m ∈ l, ¬(m.message_type = s_assistant ∧ contains_thinking_stage_text m.text stages = true)) →
    removeDups stages l = (l, 0) := by
  intro l
  induction l with
  | nil => intro _; rfl
  | cons m0 rest ih =>
    intro h
    have h0 := h m0 (List.mem_cons_self m0 rest)
    have hrest := ih (fun m hm => h m (List.mem_cons_of_mem m0 hm))
    have hstep : removeDups stages (m0 :: rest) =
        (m0 :: (removeDups stages rest).1, (removeDups stages rest).2) := by
      simp only [removeDups, if_neg h0]
    rw [hstep, hrest]

/-- Renumbering changes only `message_index`, so the stage list of the
found thinking message is unchanged. -/
theorem renumber_find_stages : ∀ (l : List Message) (i : Nat),
    ((renumber i l).find? is_thinking).map Message.thinking_stages =
      (l.find? is_thinking).map Message.thinking_stages := by
  intro l
  induction l with
  | nil => intro i; rfl
  | cons m rest ih =>
    intro i
    simp only [renumber]
    by_cases ht : is_thinking m = true
    · have ht2 : is_thinking { m with message_index := i } = true := ht
      rw [List.find?_cons_of_pos _ ht2, List.find?_cons_of_pos _ ht]
      rfl
    · have ht2 : ¬ is_thinking { m with message_index := i } = true := ht
      rw [List.find?_cons_of_neg _ ht2, List.find?_cons_of_neg _ ht]
      exact ih (i + 1)

/-- Renumbering preserves the absence of removable messages: the
removal test never looks at `message_index`. -/
theorem renumber_clean (stages : List Stage) : ∀ (l : List Message) (i : Nat),
    (∀ m ∈ l, ¬(m.message_type = s_assistant ∧ contains_thinking_stage_text m.text stages = true)) →
    (∀ m ∈ renumber i l, ¬(m.message_type = s_assistant ∧ contains_thinking_stage_text m.text stages = true)) := by
  intro l
  induction l with
  | nil => intro i _ m hm; simp [renumber] at hm
  | cons m0 rest ih =>
    intro i h m hm
    rcases List.mem_cons.mp hm with rfl | hm'
    · exact h m0 (List.mem_cons_self m0 rest)
    · exact ih (i + 1) (fun x hx => h x (List.mem_cons_of_mem m0 hx)) m hm'

/-- Renumbering an already renumbered list is the identity. -/
theorem renumber_renumber : ∀ (l : List Message) (i : Nat),
    renumber i (renumber i l) = renumber i l := by
  intro l
  induction l with
  | nil => intro i; rfl
  | cons m rest ih =>
    intro i
    simp only [renumber]
    rw [ih (i + 1)]

/-- Unfolding of `clean_exchange` when a thinking message with a
non-empty stage list is found. -/
theorem clean_exchange_eq_of_find (ex : Exchange) (tm : Message)
    (hfind : ex.messages.find? is_thinking = Option.some tm)
    (hne : tm.thinking_stages ≠ []) :
    clean_exchange ex =
      .inr ({ ex with messages := renumber 0 (removeDups tm.thinking_stages ex.messages).1 },
            (removeDups tm.thinking_stages ex.messages).2) := by
  unfold clean_exchange
  rw [hfind]
  dsimp only
  rw [if_neg hne]

/-- `clean_exchange` is idempotent on its successful results: a second
pass finds the same thinking stages, removes nothing and renumbers
identically. -/
theorem clean_exchange_idem (ex ex' : Exchange) (r : Nat)
    (h : clean_exchange ex = .inr (ex', r)) : clean_exchange ex' = .inr (ex', 0) := by
  cases hfind : ex.messages.find? is_thinking with
  | none =>
    have hinl : clean_exchange ex = .inl ex := by
      unfold clean_exchange
      rw [hfind]
    rw [hinl] at h
    exact Sum.noConfusion h
  | some tm =>
    by_cases hstages : tm.thinking_stages = []
    · have hinl : clean_exchange ex = .inl ex := by
        unfold clean_exchange
        rw [hfind]
        dsimp only
        rw [if_pos hstages]
      rw [hinl] at h
      exact Sum.noConfusion h
    · rw [clean_exchange_eq_of_find ex tm hfind hstages] at h
      rw [Sum.inr.injEq, Prod.mk.injEq] at h
      obtain ⟨hex, -⟩ := h
      subst hex
      have hK : (removeDups tm.thinking_stages ex.messages).1.find? is_thinking
          = Option.some tm := by
        rw [removeDups_find_thinking, hfind]
      have hf2 := renumber_find_stages (removeDups tm.thinking_stages ex.messages).1 0
      rw [hK] at hf2
      rcases Option.map_eq_some'.mp hf2 with ⟨tm2, hfind2, hst2⟩
      have hclean2 := renumber_clean tm.thinking_stages
        (removeDups tm.thinking_stages ex.messages).1 0
        (removeDups_kept_clean tm.thinking_stages ex.messages)
      have hrd : removeDups tm2.thinking_stages
          (renumber 0 (removeDups tm.thinking_stages ex.messages).1) =
          (renumber 0 (removeDups tm.thinking_stages ex.messages).1, 0) := by
        rw [hst2]
        exact removeDups_of_clean tm.thinking_stages _ hclean2
      have hfind2' : ({ ex with messages := renumber 0 (removeDups tm.thinking_stages ex.messages).1 } : Exchange).messages.find? is_thinking = Option.some tm2 := hfind2
      have hne2 : tm2.thinking_stages ≠ [] := by
        rw [hst2]; exact hstages
      rw [clean_exchange_eq_of_find _ tm2 hfind2' hne2]
      have hproj : ({ ex with messages := renumber 0 (removeDups tm.thinking_stages ex.messages).1 } : Exchange).messages = renumber 0 (removeDups tm.thinking_stages ex.messages).1 := rfl
      rw [hproj, hrd]
      dsimp only
      rw [renumber_renumber]

/-- Unfolding of the exchange loop when both the head cleanup and the
tail succeed. -/
theorem clean_loop_cons_eq (ex : Exchange) (rest : List Exchange) (ex2 : Exchange) (r : Nat)
    (hce : clean_exchange ex = .inr (ex2, r)) (exs : List Exchange) (c t : Nat)
    (hrest : clean_exchanges_loop rest = .ok (exs, c, t)) :
    clean_exchanges_loop (ex :: rest) =
      .ok (ex2 :: exs, (if r > 0 then c + 1 else c), t + r) := by
  unfold clean_exchanges_loop
  rw [hce]
  dsimp only
  rw [hrest]

/-- The exchange loop is idempotent on its successful results. -/
theorem clean_loop_idem : ∀ (l : List Exchange) (l' : List Exchange) (c t : Nat),
    clean_exchanges_loop l = .ok (l', c, t) → clean_exchanges_loop l' = .ok (l', 0, 0) := by
  intro l
  induction l with
  | nil =>
    intro l' c t h
    have h2 : ([] : List Exchange) = l' ∧ (0 : Nat) = c ∧ (0 : Nat) = t := by
      rw [clean_exchanges_loop] at h
      rw [Except.ok.injEq, Prod.mk.injEq, Prod.mk.injEq] at h
      exact h
    rw [← h2.1]
    rfl
  | cons ex rest ih =>
    intro l' c t h
    cases hce : clean_exchange ex with
    | inl exl =>
      have herr : clean_exchanges_loop (ex :: rest) = .error .unpack := by
        unfold clean_exchanges_loop
        rw [hce]
      rw [herr] at h
      exact Except.noConfusion h
    | inr p =>
      obtain ⟨ex2, r⟩ := p
      cases hrest : clean_exchanges_loop rest with
      | error e =>
        have herr : clean_exchanges_loop (ex :: rest) = .error e := by
          unfold clean_exchanges_loop
          rw [hce]
          dsimp only
          rw [hrest]
        rw [herr] at h
        exact Except.noConfusion h
      | ok q =>
        obtain ⟨exs, c0, t0⟩ := q
        rw [clean_loop_cons_eq ex rest ex2 r hce exs c0 t0 hrest] at h
        rw [Except.ok.injEq, Prod.mk.injEq, Prod.mk.injEq] at h
        obtain ⟨h1, -, -⟩ := h
        rw [← h1]
        exact clean_loop_cons_eq ex2 exs ex2 0 (clean_exchange_idem ex ex2 r hce)
          exs 0 0 (ih exs c0 t0 hrest)

/-- C9: the reconciler is idempotent — whenever a first `clean_file`
run succeeds and produces a cleaned export, a second run on that export
succeeds, removes no further messages, cleans no further exchanges and
leaves the export (its `message_count` included) unchanged. -/
theorem clean_file_idempotent (d d' : Export) (cleaned removed : Nat)
    (h : clean_file d = .ok (d', cleaned, removed)) :
    clean_file d' = .ok (d', 0, 0) := by
  cases hloop : clean_exchanges_loop d.exchanges with
  | error e =>
    have herr : clean_file d = .error e := by
      unfold clean_file
      rw [hloop]
    rw [herr] at h
    exact Except.noConfusion h
  | ok q =>
    obtain ⟨exs, c0, t0⟩ := q
    have hok : clean_file d =
        .ok (⟨(exs.map (fun ex => ex.messages.length)).sum, exs, d.raw_html⟩, c0, t0) := by
      unfold clean_file
      rw [hloop]
    rw [hok] at h
    rw [Except.ok.injEq, Prod.mk.injEq, Prod.mk.injEq] at h
    obtain ⟨hd, -, -⟩ := h
    subst hd
    have hloop2 := clean_loop_idem d.exchanges exs c0 t0 hloop
    have hproj : (⟨(exs.map (fun ex => ex.messages.length)).sum, exs, d.raw_html⟩ : Export).exchanges = exs := rfl
    unfold clean_file
    rw [hproj, hloop2]

def c9stage : Stage := ⟨"Summary".toList, "details".toList⟩

def c9msg : Message := ⟨s_thinking, [], [c9stage], 0⟩

/-- An export on which the reconciler succeeds without removals. -/
def c9in : Export := ⟨5, [⟨[c9msg]⟩], Option.none⟩

/-- The export the reconciler produces from `c9in`. -/
def c9out : Export := ⟨1, [⟨[c9msg]⟩], Option.none⟩

/-- Witness for C9: `clean_file` maps `c9in` to `c9out`, and a second
run on `c9out` is the identity with zero counters. -/
theorem clean_file_idempotent_witness : clean_file c9out = .ok (c9out, 0, 0) :=
  clean_file_idempotent c9in c9out 0 0 rfl
